import Mathlib

/-!
# Verification of the `non_empty` collections library

Shallow embedding of the library's data model and operations.  Rust `Vec<T>`
and slices `[T]` are modelled as `List T`; the wrapper types `NonEmptySlice`,
`NonEmptyVec`, `SortedVec` are structures holding the underlying list.
Rust operations that can panic (indexing, slicing out of range, `unwrap`) are
modelled as `Option`-returning functions, with `none` standing for the panic.
`usize` values are `Nat`; `NonZeroUsize` is the subtype of positive `Nat`.
-/

/-- The `Empty` error value defined in `slice.rs` / `vec.rs` (`error::Empty`):
the single recoverable error of the library, returned when a fallible
constructor is given a zero-length input. -/
inductive EmptyError where
  | Empty
deriving DecidableEq, Repr

/-- Rust's `std::num::NonZeroUsize`: a machine integer that is provably
non-zero at the type level.  `val` is what Rust's `.get()` returns. -/
structure NonZeroUsize where
  val : Nat
  pos : 0 < val

/-- Embeds `NonEmptySlice<T>` from `slice.rs`: a `repr(transparent)` wrapper around a
slice `[T]`.  The non-emptiness invariant is maintained by the constructors,
not by the representation, so we model it as a plain wrapper and state the
invariant separately. -/
structure NonEmptySlice (T : Type) where
  inner : List T
deriving DecidableEq, Repr

/-- Embeds `NonEmptyVec<T>` from `vec.rs`: a wrapper around a `Vec<T>`. -/
structure NonEmptyVec (T : Type) where
  inner : List T
deriving DecidableEq, Repr

/-- The invariant the library maintains: `length >= 1`. -/
def NonEmptySlice.invariant {T : Type} (s : NonEmptySlice T) : Prop :=
  1 ≤ s.inner.length

instance {T : Type} (s : NonEmptySlice T) : Decidable s.invariant :=
  inferInstanceAs (Decidable (1 ≤ s.inner.length))

/-- The invariant the library maintains: `length >= 1`. -/
def NonEmptyVec.invariant {T : Type} (v : NonEmptyVec T) : Prop :=
  1 ≤ v.inner.length

instance {T : Type} (v : NonEmptyVec T) : Decidable v.invariant :=
  inferInstanceAs (Decidable (1 ≤ v.inner.length))

namespace NonEmptySlice

/-- Embeds `NonEmptySlice::try_from_slice`: succeeds iff the input slice is
non-empty (`if !slice.is_empty() { Ok(new_unchecked(slice)) } else { Err(Empty) }`). -/
def try_from_slice {T : Type} (slice : List T) :
    Except EmptyError (NonEmptySlice T) :=
  if !slice.isEmpty then Except.ok ⟨slice⟩ else Except.error EmptyError.Empty

/-- Embeds `NonEmptySlice::first`: `&self.inner[0]`.  Indexing panics when out of
range, modelled by `none`. -/
def first {T : Type} (s : NonEmptySlice T) : Option T :=
  s.inner.get? 0

/-- Embeds `NonEmptySlice::tail`: `&self.inner[1..]`.  The range `1..len` panics
when `len < 1`, modelled by `none`. -/
def tail {T : Type} (s : NonEmptySlice T) : Option (List T) :=
  if 1 ≤ s.inner.length then some (s.inner.drop 1) else none

/-- Embeds `NonEmptySlice::last`: `&self.inner[self.len() - 1]`. -/
def last {T : Type} (s : NonEmptySlice T) : Option T :=
  s.inner.get? (s.inner.length - 1)

/-- Embeds `NonEmptySlice::init`: `&self.inner[..self.len() - 1]`.  On an empty
slice `self.len() - 1` underflows (a panic), modelled by `none`. -/
def init {T : Type} (s : NonEmptySlice T) : Option (List T) :=
  if 1 ≤ s.inner.length then some (s.inner.take (s.inner.length - 1)) else none

/-- Embeds `NonEmptySlice::as_slice`: degrade to the plain slice. -/
def as_slice {T : Type} (s : NonEmptySlice T) : List T :=
  s.inner

/-- Embeds `NonEmptySlice::reverse`: `self.inner.reverse()`, modelled functionally. -/
def reverse {T : Type} (s : NonEmptySlice T) : NonEmptySlice T :=
  ⟨s.inner.reverse⟩

end NonEmptySlice

/-- Helper for `dedupList`: prepend `a`, dropping it when it equals the
head of the already-deduplicated rest. -/
def dedupCons {T : Type} [DecidableEq T] (a : T) : List T → List T
  | [] => [a]
  | b :: r => if a = b then b :: r else a :: b :: r

/-- Embeds `Vec::dedup` (used by `NonEmptyVec::dedup` and `SortedVec::sort_vec`):
removes consecutive equal elements, collapsing each maximal run of equal
elements to a single element.  (Stated by right recursion; since the head of
the deduplicated rest equals the head of the rest, this collapses runs
exactly as the left-to-right scan of `Vec::dedup` does, and with
propositional equality "first of the run" and "last of the run" are the
same value.) -/
def dedupList {T : Type} [DecidableEq T] : List T → List T
  | [] => []
  | a :: l => dedupCons a (dedupList l)

namespace NonEmptyVec

/-- Embeds `NonEmptyVec::one`: a length-1 vector. -/
def one {T : Type} (first : T) : NonEmptyVec T :=
  ⟨[first]⟩

/-- Embeds `NonEmptyVec::with_capacity`: a length-1 vector; the capacity reservation
is a performance hint with no observable effect on contents. -/
def with_capacity {T : Type} (first : T) (capacity : Nat) : NonEmptyVec T :=
  ⟨[first]⟩

/-- Embeds `NonEmptyVec::first`: `&self.inner[0]`. -/
def first {T : Type} (v : NonEmptyVec T) : Option T :=
  v.inner.get? 0

/-- Embeds `NonEmptyVec::tail`: `&self.inner[1..]`. -/
def tail {T : Type} (v : NonEmptyVec T) : Option (List T) :=
  if 1 ≤ v.inner.length then some (v.inner.drop 1) else none

/-- Embeds `NonEmptyVec::last`: `&self.inner[self.len() - 1]`. -/
def last {T : Type} (v : NonEmptyVec T) : Option T :=
  v.inner.get? (v.inner.length - 1)

/-- Embeds `NonEmptyVec::init`: `&self.inner[..self.len() - 1]`. -/
def init {T : Type} (v : NonEmptyVec T) : Option (List T) :=
  if 1 ≤ v.inner.length then some (v.inner.take (v.inner.length - 1)) else none

/-- Embeds `NonEmptyVec::push`: `self.inner.push(value)`. -/
def push {T : Type} (v : NonEmptyVec T) (value : T) : NonEmptyVec T :=
  ⟨v.inner ++ [value]⟩

/-- Embeds `NonEmptyVec::reverse`: `self.inner.reverse()`. -/
def reverse {T : Type} (v : NonEmptyVec T) : NonEmptyVec T :=
  ⟨v.inner.reverse⟩

/-- Embeds `NonEmptyVec::as_slice`. -/
def as_slice {T : Type} (v : NonEmptyVec T) : List T :=
  v.inner

/-- Embeds `NonEmptyVec::into_vec`: unwrap to the plain `Vec`. -/
def into_vec {T : Type} (v : NonEmptyVec T) : List T :=
  v.inner

/-- Embeds `NonEmptyVec::truncate`: `self.inner.truncate(len.get())`.
`Vec::truncate` keeps the first `len` elements and is a no-op when
`len >= self.len()`, exactly `List.take`. -/
def truncate {T : Type} (v : NonEmptyVec T) (len : NonZeroUsize) : NonEmptyVec T :=
  ⟨v.inner.take len.val⟩

/-- Embeds `NonEmptyVec::dedup`: `self.inner.dedup()`. -/
def dedup {T : Type} [DecidableEq T] (v : NonEmptyVec T) : NonEmptyVec T :=
  ⟨dedupList v.inner⟩

/-- Embeds `NonEmptyVec::from_init_last`: extend an empty vec with `init` then push
`last`. -/
def from_init_last {T : Type} (init : List T) (last : T) : NonEmptyVec T :=
  ⟨init ++ [last]⟩

/-- Embeds `NonEmptyVec::from_first_tail`: push `first` then extend with `tail`. -/
def from_first_tail {T : Type} (first : T) (tail : List T) : NonEmptyVec T :=
  ⟨first :: tail⟩

/-- Embeds `NonEmptyVec::extend_from_slice`: `self.inner.extend_from_slice(other)`. -/
def extend_from_slice {T : Type} (v : NonEmptyVec T) (other : List T) :
    NonEmptyVec T :=
  ⟨v.inner ++ other⟩

/-- The `Extend` impls for `NonEmptyVec`: `self.inner.extend(iter)`; the
iterator's yielded items are modelled as the list of those items. -/
def extend {T : Type} (v : NonEmptyVec T) (iter : List T) : NonEmptyVec T :=
  ⟨v.inner ++ iter⟩

/-- Embeds `TryFrom<Vec<T>> for NonEmptyVec<T>`: fails with `Empty` iff the input
vector is empty. -/
def try_from {T : Type} (vec : List T) : Except EmptyError (NonEmptyVec T) :=
  if vec.isEmpty then Except.error EmptyError.Empty else Except.ok ⟨vec⟩

end NonEmptyVec

/-- Embeds `NonEmptyIter<'a, T>` from `slice/iter.rs`: wraps `std::slice::Iter`,
i.e. the borrowed elements still to be yielded. -/
structure NonEmptyIter (T : Type) where
  elems : List T
deriving DecidableEq, Repr

/-- Embeds `NonEmptyMap<I, F>` from `slice/iter.rs`: a lazy mapped iterator holding
the source iterator and the function. -/
structure NonEmptyMap (A B : Type) where
  iter : NonEmptyIter A
  f : A → B

/-- Embeds `NonEmptyIter::new_unchecked`: wrap an iterator without re-validating. -/
def NonEmptyIter.new_unchecked {T : Type} (iter : List T) : NonEmptyIter T :=
  ⟨iter⟩

/-- Embeds `NonEmptyIter::map`: `NonEmptyMap::new(self, f)`. -/
def NonEmptyIter.map {A B : Type} (it : NonEmptyIter A) (f : A → B) :
    NonEmptyMap A B :=
  ⟨it, f⟩

/-- Embeds `NonEmptyMap::collect` (for a `NonEmptyIter` source):
`NonEmptyVec::try_from(self.iter.0.map(self.f).collect::<Vec<_>>()).unwrap()`.
The `unwrap` panics when `try_from` fails, modelled by `none`. -/
def NonEmptyMap.collect {A B : Type} (m : NonEmptyMap A B) :
    Option (NonEmptyVec B) :=
  (NonEmptyVec.try_from (m.iter.elems.map m.f)).toOption

/-- Modelled from the spec: the `iter()` borrow that produces a
`NonEmptyIter` from a non-empty container is absent from the sources (only
`NonEmptyIter::new_unchecked` and the tests that call `vec.iter()` appear).
Per §4.3 it is "constructed only from a non-empty container's borrow" and
iterates the underlying plain sequence, so it wraps the vector's elements. -/
def NonEmptyVec.iter {T : Type} (v : NonEmptyVec T) : NonEmptyIter T :=
  NonEmptyIter.new_unchecked v.inner

/-- Embeds `SortedVec<T>` from `sorted/vec.rs`: a wrapper around a boxed slice.
The declared `by` field (`Box<dyn Fn(T) -> K>`) is part of the non-compiling
key-based variant the spec's §9 open question flags as broken; it is omitted,
keeping the demonstrably working natural-order behaviour. -/
structure SortedVec (T : Type) where
  inner : List T
deriving DecidableEq, Repr

namespace SortedVec

/-- Embeds `SortedVec::empty`: the canonical zero-length sorted container. -/
def empty {T : Type} : SortedVec T :=
  ⟨[]⟩

/-- Embeds `SortedVec::as_slice`. -/
def as_slice {T : Type} (s : SortedVec T) : List T :=
  s.inner

/-- Embeds `SortedVec::sort_vec`: `vec.sort_unstable(); vec.dedup();` then wrap.
`sort_unstable` sorts ascending by `Ord`; it is modelled by insertion sort
(extensionally the unique ascending reordering for a linear order), and
`Vec::dedup` by `dedupList`. -/
def sort_vec {T : Type} [LinearOrder T] [DecidableEq T] (vec : List T) :
    SortedVec T :=
  ⟨dedupList (vec.insertionSort (· ≤ ·))⟩

end SortedVec

/-! ## Helper lemmas about `dedupList` -/

theorem dedupList_sublist {T : Type} [DecidableEq T] (l : List T) :
    (dedupList l).Sublist l := by
  induction l with
  | nil => simp [dedupList]
  | cons a l ih =>
    rw [dedupList]
    cases h : dedupList l with
    | nil => simp [dedupCons]
    | cons b r =>
      rw [h] at ih
      rw [dedupCons]
      by_cases hab : a = b
      · rw [if_pos hab]
        exact ih.cons a
      · rw [if_neg hab]
        exact ih.cons_cons a

theorem dedupList_head {T : Type} [DecidableEq T] (a : T) (l : List T) :
    (dedupList (a :: l)).head? = some a := by
  rw [dedupList]
  cases h : dedupList l with
  | nil => rfl
  | cons b r =>
    rw [dedupCons]
    by_cases hab : a = b
    · rw [if_pos hab, hab]
      rfl
    · rw [if_neg hab]
      rfl

theorem dedupList_chain {T : Type} [DecidableEq T] (l : List T) :
    (dedupList l).Chain' (· ≠ ·) := by
  induction l with
  | nil => simp [dedupList]
  | cons a l ih =>
    rw [dedupList]
    cases h : dedupList l with
    | nil => simp [dedupCons]
    | cons b r =>
      rw [h] at ih
      rw [dedupCons]
      by_cases hab : a = b
      · rw [if_pos hab]
        exact ih
      · rw [if_neg hab]
        exact ih.cons hab

theorem mem_dedupList {T : Type} [DecidableEq T] (x : T) (l : List T) :
    x ∈ dedupList l ↔ x ∈ l := by
  constructor
  · exact fun h => (dedupList_sublist l).mem h
  · intro hx
    induction l with
    | nil => simp at hx
    | cons a l ih =>
      rw [dedupList]
      rcases List.mem_cons.mp hx with rfl | hx
      · cases h : dedupList l with
        | nil => simp [dedupCons]
        | cons b r =>
          rw [dedupCons]
          by_cases hab : x = b
          · rw [if_pos hab, hab]
            simp
          · rw [if_neg hab]
            simp
      · have hdl : x ∈ dedupList l := ih hx
        cases h : dedupList l with
        | nil => rw [h] at hdl; simp at hdl
        | cons b r =>
          rw [h] at hdl
          rw [dedupCons]
          by_cases hab : a = b
          · rw [if_pos hab]
            exact hdl
          · rw [if_neg hab]
            exact List.mem_cons_of_mem a hdl

theorem dedupList_sorted {T : Type} [LinearOrder T] [DecidableEq T] (l : List T)
    (hl : l.Sorted (· ≤ ·)) : (dedupList l).Chain' (· < ·) := by
  induction l with
  | nil => simp [dedupList]
  | cons a l ih =>
    rw [dedupList]
    cases h : dedupList l with
    | nil => simp [dedupCons]
    | cons b r =>
      have ihc : (b :: r).Chain' (· < ·) := h ▸ ih hl.of_cons
      rw [dedupCons]
      by_cases hab : a = b
      · rw [if_pos hab]
        exact ihc
      · rw [if_neg hab]
        have hb : b ∈ l := (dedupList_sublist l).mem (h ▸ List.mem_cons_self b r)
        have hle : a ≤ b := (List.sorted_cons.mp hl).1 b hb
        exact ihc.cons (lt_of_le_of_ne hle hab)

theorem dedupList_of_chain {T : Type} [DecidableEq T] (l : List T)
    (hl : l.Chain' (· ≠ ·)) : dedupList l = l := by
  induction l with
  | nil => rfl
  | cons a l ih =>
    rw [dedupList, ih hl.tail]
    cases l with
    | nil => rfl
    | cons b r =>
      rw [dedupCons, if_neg (List.chain'_cons.mp hl).1]

theorem dedupList_length_pos {T : Type} [DecidableEq T] (l : List T)
    (hl : 1 ≤ l.length) : 1 ≤ (dedupList l).length := by
  cases l with
  | nil => simp at hl
  | cons a l =>
    have h := dedupList_head a l
    cases hd : dedupList (a :: l) with
    | nil => rw [hd] at h; simp at h
    | cons b r => simp

/-! ## Claim theorems -/

/-- C1: the fallible constructors (`NonEmptySlice::try_from_slice` and
`TryFrom<Vec<T>> for NonEmptyVec`) return the `Empty` error iff the input
has zero length; on a non-empty input they succeed with a container holding
exactly the input's elements (hence the same length and order). -/
theorem try_from_empty_iff {T : Type} (l : List T) :
    (NonEmptySlice.try_from_slice l = Except.error EmptyError.Empty ↔ l = []) ∧
    (l ≠ [] → NonEmptySlice.try_from_slice l = Except.ok ⟨l⟩) ∧
    (NonEmptyVec.try_from l = Except.error EmptyError.Empty ↔ l = []) ∧
    (l ≠ [] → NonEmptyVec.try_from l = Except.ok ⟨l⟩) := by
  by_cases hl : l = [] <;>
    simp [NonEmptySlice.try_from_slice, NonEmptyVec.try_from, hl]

/-- C1 witness: evaluated at `[3, 7]` and at `[]`. -/
theorem try_from_empty_iff_witness :
    NonEmptySlice.try_from_slice ([3, 7] : List Int) = Except.ok ⟨[3, 7]⟩ ∧
    NonEmptyVec.try_from ([3, 7] : List Int) = Except.ok ⟨[3, 7]⟩ ∧
    NonEmptySlice.try_from_slice ([] : List Int) = Except.error EmptyError.Empty ∧
    NonEmptyVec.try_from ([] : List Int) = Except.error EmptyError.Empty := by
  have h := try_from_empty_iff ([3, 7] : List Int)
  have h0 := try_from_empty_iff ([] : List Int)
  exact ⟨h.2.1 (by decide), h.2.2.2 (by decide), h0.1.mpr rfl, h0.2.2.1.mpr rfl⟩

/-- C8: `reverse` is an involution on `NonEmptyVec` and on (mutable)
`NonEmptySlice`: reversing twice restores the original sequence exactly. -/
theorem reverse_involution {T : Type} (v : NonEmptyVec T) (s : NonEmptySlice T) :
    v.reverse.reverse = v ∧ s.reverse.reverse = s := by
  constructor
  · cases v
    simp [NonEmptyVec.reverse]
  · cases s
    simp [NonEmptySlice.reverse]

/-- C9: converting a non-empty container to a plain sequence (`into_vec` /
`as_slice`) and passing the result back through the fallible constructor
succeeds and reproduces the same container (same elements, same order). -/
theorem round_trip {T : Type} (v : NonEmptyVec T) (s : NonEmptySlice T)
    (hv : v.invariant) (hs : s.invariant) :
    NonEmptyVec.try_from v.into_vec = Except.ok v ∧
    NonEmptySlice.try_from_slice s.as_slice = Except.ok s := by
  obtain ⟨lv⟩ := v
  obtain ⟨ls⟩ := s
  have hv' : lv ≠ [] := by
    intro h
    rw [h] at hv
    simp [NonEmptyVec.invariant] at hv
  have hs' : ls ≠ [] := by
    intro h
    rw [h] at hs
    simp [NonEmptySlice.invariant] at hs
  constructor
  · simp [NonEmptyVec.try_from, NonEmptyVec.into_vec, hv']
  · simp [NonEmptySlice.try_from_slice, NonEmptySlice.as_slice, hs']

/-- C9 witness: round trip of `[4, 5, 6]` through both constructors. -/
theorem round_trip_witness :
    NonEmptyVec.try_from (NonEmptyVec.mk ([4, 5, 6] : List Int)).into_vec =
      Except.ok ⟨[4, 5, 6]⟩ ∧
    NonEmptySlice.try_from_slice (NonEmptySlice.mk ([4, 5, 6] : List Int)).as_slice =
      Except.ok ⟨[4, 5, 6]⟩ :=
  round_trip ⟨[4, 5, 6]⟩ ⟨[4, 5, 6]⟩ (by decide) (by decide)

/-- C10: for `n` larger than the current length, `truncate n` leaves the
vector completely unchanged: it neither fails nor grows the vector. -/
theorem truncate_out_of_range {T : Type} (v : NonEmptyVec T) (n : NonZeroUsize)
    (h : v.inner.length < n.val) : v.truncate n = v := by
  cases v
  simp only [NonEmptyVec.truncate, NonEmptyVec.mk.injEq]
  exact List.take_of_length_le (le_of_lt h)

/-- C10 witness: truncating `[1, 2]` to length 5 changes nothing. -/
theorem truncate_out_of_range_witness :
    (NonEmptyVec.mk ([1, 2] : List Int)).truncate ⟨5, by decide⟩ = ⟨[1, 2]⟩ :=
  truncate_out_of_range ⟨[1, 2]⟩ ⟨5, by decide⟩ (by decide)

/-- C6: for `1 ≤ n ≤ length`, `truncate n` yields exactly the original first
`n` elements (length exactly `n`, elements unchanged); and the type of the
argument (`NonZeroUsize`) itself rules out `n = 0` — every expressible
argument is positive, with no runtime check involved. -/
theorem truncate_in_range {T : Type} (v : NonEmptyVec T) (n : NonZeroUsize)
    (h : n.val ≤ v.inner.length) :
    (v.truncate n).inner.length = n.val ∧
    (v.truncate n).inner = v.inner.take n.val ∧
    (∀ i, i < n.val → (v.truncate n).inner.get? i = v.inner.get? i) ∧
    0 < n.val := by
  refine ⟨?_, rfl, ?_, n.pos⟩
  · simp only [NonEmptyVec.truncate, List.length_take]
    omega
  · intro i hi
    simp only [NonEmptyVec.truncate, List.get?_eq_getElem?, List.getElem?_take,
      if_pos hi]

/-- C6 witness: truncating `[1, 2, 3]` to length 2 gives `[1, 2]`. -/
theorem truncate_in_range_witness :
    ((NonEmptyVec.mk ([1, 2, 3] : List Int)).truncate ⟨2, by decide⟩).inner.length = 2 ∧
    ((NonEmptyVec.mk ([1, 2, 3] : List Int)).truncate ⟨2, by decide⟩).inner = [1, 2] := by
  have h := truncate_in_range (NonEmptyVec.mk ([1, 2, 3] : List Int))
    ⟨2, by decide⟩ (by decide)
  exact ⟨h.1, by simpa using h.2.1⟩

/-- C3: on any container satisfying the invariant (as every constructed
`NonEmptySlice`/`NonEmptyVec` does), `first` is the element at index 0,
`last` the element at index `length - 1`, `init` the plain slice of the
first `length - 1` elements and `tail` the plain slice of the last
`length - 1` elements; all four return a value (no panic / no failure). -/
theorem first_last_init_tail {T : Type} (s : NonEmptySlice T) (v : NonEmptyVec T)
    (hs : s.invariant) (hv : v.invariant) :
    (s.first = s.inner.get? 0 ∧ s.first.isSome) ∧
    (s.last = s.inner.get? (s.inner.length - 1) ∧ s.last.isSome) ∧
    (s.init = some (s.inner.take (s.inner.length - 1)) ∧
      (s.inner.take (s.inner.length - 1)).length = s.inner.length - 1) ∧
    (s.tail = some (s.inner.drop 1) ∧
      (s.inner.drop 1).length = s.inner.length - 1) ∧
    (v.first = v.inner.get? 0 ∧ v.first.isSome) ∧
    (v.last = v.inner.get? (v.inner.length - 1) ∧ v.last.isSome) ∧
    (v.init = some (v.inner.take (v.inner.length - 1)) ∧
      (v.inner.take (v.inner.length - 1)).length = v.inner.length - 1) ∧
    (v.tail = some (v.inner.drop 1) ∧
      (v.inner.drop 1).length = v.inner.length - 1) := by
  have hs' : 1 ≤ s.inner.length := hs
  have hv' : 1 ≤ v.inner.length := hv
  have hs0 : 0 < s.inner.length := hs'
  have hv0 : 0 < v.inner.length := hv'
  have hsl : s.inner.length - 1 < s.inner.length := by omega
  have hvl : v.inner.length - 1 < v.inner.length := by omega
  refine ⟨⟨rfl, ?_⟩, ⟨rfl, ?_⟩, ⟨?_, ?_⟩, ⟨?_, ?_⟩,
    ⟨rfl, ?_⟩, ⟨rfl, ?_⟩, ⟨?_, ?_⟩, ⟨?_, ?_⟩⟩
  · simp [NonEmptySlice.first, List.get?_eq_getElem?, List.getElem?_eq_getElem hs0]
  · simp [NonEmptySlice.last, List.get?_eq_getElem?, List.getElem?_eq_getElem hsl]
  · simp [NonEmptySlice.init, hs']
  · simp [List.length_take]
  · simp [NonEmptySlice.tail, hs']
  · simp [List.length_drop]
  · simp [NonEmptyVec.first, List.get?_eq_getElem?, List.getElem?_eq_getElem hv0]
  · simp [NonEmptyVec.last, List.get?_eq_getElem?, List.getElem?_eq_getElem hvl]
  · simp [NonEmptyVec.init, hv']
  · simp [List.length_take]
  · simp [NonEmptyVec.tail, hv']
  · simp [List.length_drop]

/-- C3 witness: evaluated on the container `[10, 20, 30]`. -/
theorem first_last_init_tail_witness :
    (NonEmptySlice.mk ([10, 20, 30] : List Int)).first = some 10 ∧
    (NonEmptySlice.mk ([10, 20, 30] : List Int)).last = some 30 ∧
    (NonEmptyVec.mk ([10, 20, 30] : List Int)).init = some [10, 20] ∧
    (NonEmptyVec.mk ([10, 20, 30] : List Int)).tail = some [20, 30] := by
  have h := first_last_init_tail (NonEmptySlice.mk ([10, 20, 30] : List Int))
    (NonEmptyVec.mk ([10, 20, 30] : List Int)) (by decide) (by decide)
  refine ⟨?_, ?_, ?_, ?_⟩
  · rw [h.1.1]
    decide
  · rw [h.2.1.1]
    decide
  · rw [h.2.2.2.2.2.2.1.1]
    decide
  · rw [h.2.2.2.2.2.2.2.1]
    decide

/-- C2: every `NonEmptyVec` operation preserves `length >= 1`: each
constructor (`one`, `with_capacity`, `from_init_last`, `from_first_tail`,
successful `TryFrom`) establishes the invariant and each mutator (`push`,
`extend`, `extend_from_slice`, `reverse`, `dedup`, `truncate` with a
`NonZeroUsize` argument) keeps it. -/
theorem invariant_preserved {T : Type} [DecidableEq T] (x : T) (c : Nat)
    (il l : List T) (v : NonEmptyVec T) (n : NonZeroUsize) :
    (NonEmptyVec.one x).invariant ∧
    (NonEmptyVec.with_capacity x c).invariant ∧
    (NonEmptyVec.from_init_last il x).invariant ∧
    (NonEmptyVec.from_first_tail x il).invariant ∧
    (∀ w, NonEmptyVec.try_from l = Except.ok w → w.invariant) ∧
    (v.invariant → (v.push x).invariant) ∧
    (v.invariant → (v.extend l).invariant) ∧
    (v.invariant → (v.extend_from_slice l).invariant) ∧
    (v.invariant → v.reverse.invariant) ∧
    (v.invariant → v.dedup.invariant) ∧
    (v.invariant → (v.truncate n).invariant) := by
  refine ⟨?_, ?_, ?_, ?_, ?_, ?_, ?_, ?_, ?_, ?_, ?_⟩
  · simp [NonEmptyVec.one, NonEmptyVec.invariant]
  · simp [NonEmptyVec.with_capacity, NonEmptyVec.invariant]
  · simp [NonEmptyVec.from_init_last, NonEmptyVec.invariant]
  · simp [NonEmptyVec.from_first_tail, NonEmptyVec.invariant]
  · intro w hw
    rw [NonEmptyVec.try_from] at hw
    split at hw
    · exact absurd hw (by simp)
    · next hl =>
      cases hw
      have hne : l ≠ [] := by simpa using hl
      rw [NonEmptyVec.invariant]
      cases l with
      | nil => exact absurd rfl hne
      | cons a t => simp
  · intro hv
    simp only [NonEmptyVec.push, NonEmptyVec.invariant, List.length_append]
    have : 1 ≤ v.inner.length := hv
    omega
  · intro hv
    simp only [NonEmptyVec.extend, NonEmptyVec.invariant, List.length_append]
    have : 1 ≤ v.inner.length := hv
    omega
  · intro hv
    simp only [NonEmptyVec.extend_from_slice, NonEmptyVec.invariant,
      List.length_append]
    have : 1 ≤ v.inner.length := hv
    omega
  · intro hv
    simpa only [NonEmptyVec.reverse, NonEmptyVec.invariant,
      List.length_reverse] using hv
  · intro hv
    exact dedupList_length_pos v.inner hv
  · intro hv
    simp only [NonEmptyVec.truncate, NonEmptyVec.invariant, List.length_take]
    have h1 : 1 ≤ v.inner.length := hv
    have h2 : 0 < n.val := n.pos
    omega

/-- C2 witness: the invariant evaluated along a chain of concrete
constructions and mutations. -/
theorem invariant_preserved_witness :
    (NonEmptyVec.one (5 : Int)).invariant ∧
    (NonEmptyVec.with_capacity (5 : Int) 3).invariant ∧
    (NonEmptyVec.from_init_last ([1] : List Int) 5).invariant ∧
    (NonEmptyVec.from_first_tail (5 : Int) [1]).invariant ∧
    (NonEmptyVec.mk ([5, 7] : List Int)).invariant ∧
    ((NonEmptyVec.mk ([5, 7] : List Int)).push 9).invariant ∧
    ((NonEmptyVec.mk ([5, 7] : List Int)).extend [1]).invariant ∧
    ((NonEmptyVec.mk ([5, 7] : List Int)).extend_from_slice [1]).invariant ∧
    (NonEmptyVec.mk ([5, 7] : List Int)).reverse.invariant ∧
    (NonEmptyVec.mk ([5, 7] : List Int)).dedup.invariant ∧
    ((NonEmptyVec.mk ([5, 7] : List Int)).truncate ⟨1, Nat.one_pos⟩).invariant := by
  have h := invariant_preserved (9 : Int) 3 [1] [1]
    (NonEmptyVec.mk ([5, 7] : List Int)) ⟨1, Nat.one_pos⟩
  have h5 := invariant_preserved (5 : Int) 3 [1] [1]
    (NonEmptyVec.mk ([5, 7] : List Int)) ⟨1, Nat.one_pos⟩
  have hv : (NonEmptyVec.mk ([5, 7] : List Int)).invariant := by decide
  exact ⟨h5.1, h5.2.1, h5.2.2.1, h5.2.2.2.1, hv,
    h.2.2.2.2.2.1 hv, h.2.2.2.2.2.2.1 hv, h.2.2.2.2.2.2.2.1 hv,
    h.2.2.2.2.2.2.2.2.1 hv, h.2.2.2.2.2.2.2.2.2.1 hv,
    h.2.2.2.2.2.2.2.2.2.2 hv⟩

/-- C4: for a `NonEmptyVec` `v` satisfying the invariant, the chain
`v.iter().map(f).collect()` never fails (the internal `unwrap` cannot
panic) and returns a `NonEmptyVec` whose elements are `f` applied
elementwise: its length equals `v`'s length and its `i`-th element is `f`
of `v`'s `i`-th element. -/
theorem map_collect_total {A B : Type} (v : NonEmptyVec A) (f : A → B)
    (h : v.invariant) :
    (v.iter.map f).collect = some ⟨v.inner.map f⟩ ∧
    (v.inner.map f).length = v.inner.length ∧
    ∀ i, (v.inner.map f).get? i = (v.inner.get? i).map f := by
  refine ⟨?_, List.length_map v.inner f, ?_⟩
  · have hne : (v.inner.map f).isEmpty = false := by
      cases hl : v.inner with
      | nil =>
        rw [NonEmptyVec.invariant, hl] at h
        simp at h
      | cons a l => simp [hl]
    rw [NonEmptyMap.collect]
    simp [NonEmptyVec.iter, NonEmptyIter.new_unchecked, NonEmptyIter.map,
      NonEmptyVec.try_from, hne, Except.toOption]
  · intro i
    simp [List.get?_eq_getElem?, List.getElem?_map]

/-- C4 witness: mapping `×10` over `[10, 20, 30, 40, 50]` collects to
`[100, 200, 300, 400, 500]`. -/
theorem map_collect_total_witness :
    ((NonEmptyVec.mk ([10, 20, 30, 40, 50] : List Int)).iter.map
      (fun a => a * 10)).collect = some ⟨[100, 200, 300, 400, 500]⟩ := by
  have h := map_collect_total (NonEmptyVec.mk ([10, 20, 30, 40, 50] : List Int))
    (fun a => a * 10) (by decide)
  rw [h.1]
  decide

/-- C7: `dedup` removes only immediately-adjacent equal elements: the result
has no two adjacent equal elements, is a subsequence of the original with
the same head, a vector that already has no adjacent equal pair (such as
`[1, 2, 1]`) is left unchanged, and the result is never empty. -/
theorem dedup_adjacent {T : Type} [DecidableEq T] (v : NonEmptyVec T)
    (h : v.invariant) :
    v.dedup.inner.Chain' (· ≠ ·) ∧
    v.dedup.inner.Sublist v.inner ∧
    v.dedup.inner.head? = v.inner.head? ∧
    (v.inner.Chain' (· ≠ ·) → v.dedup = v) ∧
    v.dedup.invariant ∧
    (NonEmptyVec.mk ([1, 2, 1] : List Int)).dedup = ⟨[1, 2, 1]⟩ ∧
    (NonEmptyVec.mk ([1, 1] : List Int)).dedup = ⟨[1]⟩ := by
  refine ⟨dedupList_chain v.inner, dedupList_sublist v.inner, ?_, ?_,
    dedupList_length_pos v.inner h, by decide, by decide⟩
  · cases hl : v.inner with
    | nil =>
      rw [NonEmptyVec.invariant, hl] at h
      simp at h
    | cons a l => simp [NonEmptyVec.dedup, hl, dedupList_head]
  · intro hc
    cases v
    simp only [NonEmptyVec.dedup, NonEmptyVec.mk.injEq]
    exact dedupList_of_chain _ hc

/-- C7 witness: `[1, 2, 1]` stays `[1, 2, 1]`, `[1, 1]` becomes `[1]`, and
the result is non-empty. -/
theorem dedup_adjacent_witness :
    (NonEmptyVec.mk ([1, 2, 1] : List Int)).dedup = ⟨[1, 2, 1]⟩ ∧
    (NonEmptyVec.mk ([1, 1] : List Int)).dedup = ⟨[1]⟩ ∧
    (NonEmptyVec.mk ([1, 1] : List Int)).dedup.invariant := by
  have h := dedup_adjacent (NonEmptyVec.mk ([1, 1] : List Int)) (by decide)
  exact ⟨h.2.2.2.2.2.1, h.2.2.2.2.2.2, h.2.2.2.2.1⟩

/-- C5: `SortedVec::sort_vec` produces a strictly ascending sequence (hence
no two equal adjacent elements) whose members are exactly the distinct
elements of the input; `[3, 1, 2, 1]` yields `[1, 2, 3]`, and the empty
input yields the empty sorted container, the same value `empty()` builds. -/
theorem sort_vec_sorted_dedup :
    (∀ (T : Type) [LinearOrder T] [DecidableEq T] (l : List T),
      (SortedVec.sort_vec l).inner.Chain' (· < ·) ∧
      ∀ x, x ∈ (SortedVec.sort_vec l).inner ↔ x ∈ l) ∧
    SortedVec.sort_vec ([3, 1, 2, 1] : List Int) = ⟨[1, 2, 3]⟩ ∧
    SortedVec.sort_vec ([] : List Int) = SortedVec.empty := by
  refine ⟨?_, by decide, by decide⟩
  intro T instO instE l
  constructor
  · simpa only [SortedVec.sort_vec] using
      dedupList_sorted _ (List.sorted_insertionSort (· ≤ ·) l)
  · intro x
    rw [SortedVec.sort_vec, mem_dedupList]
    exact (List.perm_insertionSort (· ≤ ·) l).mem_iff
